import Mathlib

/-!
Shallow embedding of the DetectorGraph evaluation engine
(google/detectorgraph, full/STL build) and proofs about it.

Embedded code:
* `src/src/graph.cpp` — `Graph::TopoSortGraph`, `Graph::DFS_visit`,
  `Graph::EvaluateGraph`, `Graph::ClearTraverseContexts`,
  `Graph::TraverseVertices`, `Graph::ComposeOutputList`.
* `src/include/topic.hpp` — `Topic<T>::Publish`, `Topic<T>::ProcessVertex`,
  `Topic<T>::DispatchIntoSubscriber`, `Topic<T>::GetCurrentTopicStates`.
* `src/src/detector.cpp` — `Detector::ProcessVertex`.
* `src/include/graphinputqueue-stl.hpp` — `GraphInputQueue::DequeueAndDispatch`.
* `src/src/statesnapshot.cpp` — `StateSnapshot` extension constructor,
  `StateSnapshot::UpdateValues`, `StateSnapshot::GetState`.
* `src/src/timeoutpublisherservice.cpp` — `GetUniqueTimerHandle`,
  `ScheduleTimeoutDispatcher`, `CancelPublishOnTimeout`, `TimeoutExpired`,
  `HasTimeoutExpired`.

Modelling conventions:
* Vertices are identified by natural numbers (the C++ code identifies them by
  pointer).  A graph is a static description `EGraph` (kinds, immediate
  out-edges, future out-edges, subscriptions, detector behaviour) together
  with a mutable state `GraphSt` (the vertex list `order` = `mVertices`,
  the dirty flag `mNeedsSorting`, per-vertex search state `mState`,
  per-topic current values `mCurrentValues`, the input queue and the output
  list).
* Topic values are `Nat` (the C++ code is generic over the payload type `T`;
  nothing in the claims depends on the payload structure).
* A user detector's `Evaluate`/`BeginEvaluation`/`CompleteEvaluation` bodies
  are external user code; their only graph-visible effect is the ordered
  sequence of `Publish` calls they make, which is a function of the values
  dispatched into the detector.  This is modelled by the `behave` field.
* The C++ recursive `DFS_visit` is modelled with explicit fuel; fuel
  `order.length + 1` is proved sufficient (`dfsVisit` never returns
  `noFuel` with that fuel), so the fuel is invisible in the theorems.
* On a failed sort the C++ code leaves the partially-marked vertex states
  behind; those marks are overwritten by `ClearTraverseContexts` before any
  later read, so the embedding does not carry them out of the sort.
-/

namespace DetectorGraph

/-- `Vertex::VertexSearchState` (vertex.hpp). -/
inductive VState where
  | clear
  | processing
  | done
deriving DecidableEq, Repr

/-- `Vertex::VertexType` (vertex.hpp); `kTestVertex` is a test-only artifact
and is not modelled. -/
inductive VKind where
  | topicV
  | detectorV
deriving DecidableEq, Repr

/-- The two `ErrorType` values produced by graph evaluation (errortype.hpp;
the remaining enumerators are unused by the embedded code). -/
inductive ErrorType where
  | Success
  | BadConfiguration
deriving DecidableEq, Repr

/-- Topic payloads; the C++ code is generic over the payload type. -/
abbrev Val := Nat

/-- Static description of a DetectorGraph graph.  `adj` are the immediate
out-edges (`Vertex::mOutEdges`), `fadj` the future out-edges
(`Vertex::mFutureOutEdges`, populated by `MarkFutureEdge` and never read by
evaluation), `subs` a detector's subscribed topics in dispatcher-registration
order (`Detector::mInDispatchers`), and `behave` the ordered `Publish` calls
a detector's user code makes given the values dispatched into it. -/
structure EGraph where
  kind : Nat → VKind
  adj : Nat → List Nat
  fadj : Nat → List Nat
  subs : Nat → List Nat
  behave : Nat → List Val → List (Nat × Val)

/-- Mutable graph state: `order` is `Graph::mVertices` (replaced by the
sorted list on a successful sort), `dirty` is `Graph::mNeedsSorting`,
`σ` the per-vertex `Vertex::mState`, `vals` the per-topic
`Topic::mCurrentValues`, `queue` the `GraphInputQueue` contents
(topic, payload), and `output` is `Graph::mOutputList`. -/
structure GraphSt where
  order : List Nat
  dirty : Bool
  σ : Nat → VState
  vals : Nat → List Val
  queue : List (Nat × Val)
  output : List Val

/-! ### Depth-first topological sort (`Graph::TopoSortGraph` / `DFS_visit`) -/

/-- DFS working state: the vertex marks and the accumulated `sorted` list
(`DFS_visit` prepends each finished vertex). -/
structure DfsSt where
  σ : Nat → VState
  sorted : List Nat

/-- Result of a DFS step: success with the updated state, a detected cycle
(`ErrorType_BadConfiguration` in `DFS_visit`), or fuel exhaustion (an
artifact of the embedding, proved unreachable for fuel `> #clear`). -/
inductive DfsRes where
  | ok (st : DfsSt)
  | cycle
  | noFuel

/-- The loop over `v->GetOutEdges()` inside `DFS_visit` (graph.cpp lines
128–155): a Clear child is visited recursively, a Processing child is a
back edge (cycle), a Done child is skipped. -/
def dfsLoop (visit : Nat → DfsSt → DfsRes) : List Nat → DfsSt → DfsRes
  | [], st => .ok st
  | c :: cs, st =>
    match st.σ c with
    | .clear =>
      match visit c st with
      | .ok st1 => dfsLoop visit cs st1
      | r => r
    | .processing => .cycle
    | .done => dfsLoop visit cs st

/-- `Graph::DFS_visit` (graph.cpp lines 122–161): mark `v` Processing,
examine each out-edge, then mark `v` Done and prepend it to `sorted`. -/
def dfsVisit (g : EGraph) : Nat → Nat → DfsSt → DfsRes
  | 0, _, _ => .noFuel
  | fuel + 1, v, st =>
    let st1 : DfsSt := ⟨Function.update st.σ v .processing, st.sorted⟩
    match dfsLoop (dfsVisit g fuel) (g.adj v) st1 with
    | .ok st2 => .ok ⟨Function.update st2.σ v .done, v :: st2.sorted⟩
    | r => r

/-- The top-level loop of `Graph::TopoSortGraph` (graph.cpp lines 85–98):
start a DFS at every still-Clear vertex of `mVertices`. -/
def topoLoop (g : EGraph) (fuel : Nat) : List Nat → DfsSt → DfsRes
  | [], st => .ok st
  | v :: vs, st =>
    if st.σ v = .clear then
      match dfsVisit g fuel v st with
      | .ok st1 => topoLoop g fuel vs st1
      | r => r
    else topoLoop g fuel vs st

/-- `Graph::TopoSortGraph` (graph.cpp lines 70–120) as a function of the
current vertex list: clear all marks, run the DFS loop, compare the number
of sorted vertices with `mVertices.size()` (the out-of-bounds-edge check)
and on success replace the vertex list with the sorted one.  On failure the
vertex list is returned unchanged, exactly as the C++ code leaves
`mVertices` untouched. -/
def topoSortOrder (g : EGraph) (order : List Nat) : ErrorType × List Nat :=
  match topoLoop g (order.length + 1) order ⟨fun _ => .clear, []⟩ with
  | .ok st => if st.sorted.length = order.length
      then (.Success, st.sorted) else (.BadConfiguration, order)
  | _ => (.BadConfiguration, order)

/-! ### One evaluation pass -/

/-- `Topic<T>::Publish` (topic.hpp lines 114–123): if the topic is not
Processing, clear its values and mark it Processing; then append the
payload. -/
def topicPublish (st : GraphSt) (t : Nat) (x : Val) : GraphSt :=
  if st.σ t = .processing then
    { st with vals := Function.update st.vals t (st.vals t ++ [x]) }
  else
    { st with σ := Function.update st.σ t .processing,
              vals := Function.update st.vals t [x] }

/-- The values a detector's dispatchers deliver in one pass: for each
subscribed topic in registration order, `Topic<T>::DispatchIntoSubscriber`
(topic.hpp lines 145–162) calls `Evaluate` once per value iff the topic is
Done. -/
def gatherInputs (g : EGraph) (st : GraphSt) (d : Nat) : List Val :=
  (g.subs d).flatMap fun s => if st.σ s = .done then st.vals s else []

/-- Mark vertex `i` Done (`Vertex::SetState(kVertexDone)`). -/
def setDone (st : GraphSt) (i : Nat) : GraphSt :=
  { st with σ := Function.update st.σ i .done }

/-- `Vertex::ProcessVertex` for both vertex kinds.
Topic (topic.hpp lines 125–140): a Clear topic lazily clears its values;
a Processing topic becomes Done and marks all out-edge children Processing
(`BaseTopic::MarkChildrenState`).  The C++ body is two sequential `if`s on
the state; their conditions are mutually exclusive and the first branch
does not change the state, so they are rendered as an if/else-if chain.
Detector (detector.cpp lines 40–54): a Processing detector runs
`BeginEvaluation`, dispatches every subscription in order, runs
`CompleteEvaluation` (all modelled by `behave` as the resulting `Publish`
sequence) and becomes Done. -/
def processVertex (g : EGraph) (st : GraphSt) (i : Nat) : GraphSt :=
  match g.kind i with
  | .topicV =>
    if st.σ i = .clear then
      { st with vals := Function.update st.vals i [] }
    else if st.σ i = .processing then
      { st with σ := ((g.adj i).foldl
          (fun f c => Function.update f c .processing)
          (Function.update st.σ i .done)) }
    else st
  | .detectorV =>
    if st.σ i = .processing then
      setDone ((g.behave i (gatherInputs g st i)).foldl
        (fun s p => topicPublish s p.1 p.2) st) i
    else st

/-- `Graph::ClearTraverseContexts` (graph.cpp lines 220–230): set every
vertex of `mVertices` to Clear. -/
def clearContexts (st : GraphSt) : GraphSt :=
  { st with σ := st.order.foldl (fun f i => Function.update f i .clear) st.σ }

/-- `GraphInputQueue::DequeueAndDispatch` (graphinputqueue-stl.hpp lines
38–56): pop the front entry, if any, and `Publish` it into its topic. -/
def dequeueDispatch (st : GraphSt) : GraphSt :=
  match st.queue with
  | [] => st
  | (t, x) :: rest => topicPublish { st with queue := rest } t x

/-- `Graph::TraverseVertices` (graph.cpp lines 232–244): call
`ProcessVertex` on every vertex in `mVertices` order. -/
def traverseVertices (g : EGraph) (st : GraphSt) : GraphSt :=
  st.order.foldl (processVertex g) st

/-- `Graph::ComposeOutputList` (graph.cpp lines 246–267): clear the output
list, then append `GetCurrentTopicStates()` (a copy of the current values,
topic.hpp lines 204–216) of every topic vertex in `mVertices` order. -/
def composeOutputList (g : EGraph) (st : GraphSt) : GraphSt :=
  { st with output := st.order.flatMap fun i =>
      if g.kind i = .topicV then st.vals i else [] }

/-- The body of a pass: clear contexts, dequeue-and-dispatch one input,
traverse, compose the output list (graph.cpp lines 177–188). -/
def evalPass (g : EGraph) (st : GraphSt) : GraphSt :=
  composeOutputList g (traverseVertices g (dequeueDispatch (clearContexts st)))

/-- `Graph::EvaluateGraph` (graph.cpp lines 163–196): sort first if the
graph is dirty, propagating a sort failure; then run the pass
(`TraverseVertices` and `ComposeOutputList` always return
`ErrorType_Success`). -/
def EvaluateGraph (g : EGraph) (st : GraphSt) : ErrorType × GraphSt :=
  if st.dirty then
    match topoSortOrder g st.order with
    | (.Success, newOrder) =>
      (.Success, evalPass g { st with order := newOrder, dirty := false })
    | (r, _) => (r, st)
  else
    (.Success, evalPass g st)

/-! ### Specification-side predicates for the graph claims -/

/-- The immediate-edge relation of the graph: `u → v` iff `v` is one of
`u`'s immediate out-edges. -/
def Edge (g : EGraph) (u v : Nat) : Prop := v ∈ g.adj u

/-- The immediate-edge subgraph over the graph's vertex list contains a
directed cycle. -/
def HasCycle (g : EGraph) (order : List Nat) : Prop :=
  ∃ v ∈ order, Relation.TransGen (Edge g) v v

/-- Every immediate out-edge of a listed vertex targets a listed vertex
(no out-of-bounds edges). -/
def Closed (g : EGraph) (order : List Nat) : Prop :=
  ∀ i ∈ order, ∀ j ∈ g.adj i, j ∈ order

/-- The vertex list is topologically ordered over immediate out-edges:
every out-edge of a vertex targets a strictly later list entry. -/
def TopoOk (g : EGraph) : List Nat → Prop
  | [] => True
  | i :: rest => (∀ j ∈ g.adj i, j ∈ rest) ∧ TopoOk g rest

/-- Detectors publish only along their declared immediate out-edges
(the `Detector::SetupPublishing` construction contract). -/
def PubOk (g : EGraph) (order : List Nat) : Prop :=
  ∀ i ∈ order, g.kind i = .detectorV →
    ∀ ins t x, (t, x) ∈ g.behave i ins → t ∈ g.adj i

instance (g : EGraph) : ∀ l, Decidable (TopoOk g l)
  | [] => .isTrue trivial
  | _ :: rest =>
    have : Decidable (TopoOk g rest) := instDecidableTopoOk g rest
    inferInstanceAs (Decidable (_ ∧ _))

instance (g : EGraph) (ord : List Nat) : Decidable (Closed g ord) :=
  inferInstanceAs (Decidable (∀ i ∈ ord, ∀ j ∈ g.adj i, j ∈ ord))

/-! ### StateSnapshot (statesnapshot.cpp) -/

/-- A `TopicState` as seen by the snapshot store: its `GetId()` value and
its payload.  `GetId() = kAnonymousTopicState = -1` marks an anonymous
state (topicstate.hpp). -/
structure TS where
  id : Int
  val : Val
deriving DecidableEq, Repr

/-- `TopicState::kAnonymousTopicState`. -/
def kAnonymousTopicState : Int := -1

/-- `StateSnapshot`: the version counter and the `mStateStore` map from
topic-state id to the stored value. -/
structure Snapshot where
  version : Nat
  store : Int → Option TS

/-- The loop body of `StateSnapshot::UpdateValues` (statesnapshot.cpp lines
36–76), folding the output list into the map while tracking
`previousTopicStateID`.  The returned flag records whether the
consecutive-duplicate branch (the `DG_LOG` diagnostic at lines 59–65) fired
for some entry.  Anonymous entries are skipped entirely (they update
neither the map nor `previousTopicStateID`). -/
def updateValuesGo (m : Int → Option TS) (prev : Int) (dup : Bool) :
    List TS → (Int → Option TS) × Bool
  | [] => (m, dup)
  | t :: rest =>
    if t.id ≠ kAnonymousTopicState then
      updateValuesGo (Function.update m t.id (some t)) t.id
        (dup || (t.id == prev)) rest
    else
      updateValuesGo m prev dup rest

/-- `StateSnapshot::UpdateValues` applied to the whole list, starting from
`previousTopicStateID = kAnonymousTopicState`. -/
def updateValues (m : Int → Option TS) (l : List TS) :
    (Int → Option TS) × Bool :=
  updateValuesGo m kAnonymousTopicState false l

/-- The extension constructor
`StateSnapshot::StateSnapshot(const StateSnapshot&, const std::list<...>&)`
(statesnapshot.cpp lines 28–34): copy the previous map, fold in the new
values, and bump the version. -/
def extendSnapshot (p : Snapshot) (l : List TS) : Snapshot :=
  { version := p.version + 1, store := (updateValues p.store l).1 }

/-- `StateSnapshot::GetState` (statesnapshot.cpp lines 82–90): map lookup,
empty pointer when absent. -/
def getState (s : Snapshot) (i : Int) : Option TS := s.store i

/-! ### TimeoutPublisherService (timeoutpublisherservice.cpp) -/

/-- A scheduled one-shot dispatcher `TimeoutPublisherService::Dispatcher<T>`:
the (topic, payload) its `Dispatch` pushes via `Graph::PushData<T>`. -/
structure TDispatcher where
  topic : Nat
  val : Val
deriving DecidableEq, Repr

/-- The service state relevant to one-shot timers:
`mTimeoutDispatchers`, one slot per issued handle (`NULL` = empty). -/
structure TimeoutSvc where
  dispatchers : List (Option TDispatcher)
deriving DecidableEq, Repr

/-- `TimeoutPublisherService::GetUniqueTimerHandle` (lines 44–52): the new
handle is the current `mTimeoutDispatchers.size()` and an empty slot is
appended.  Handles are C++ `int` (`TimeoutPublisherHandle`). -/
def getUniqueTimerHandle (s : TimeoutSvc) : Int × TimeoutSvc :=
  ((s.dispatchers.length : Int), ⟨s.dispatchers ++ [none]⟩)

/-- `kInvalidTimeoutPublisherHandle` (timeoutpublisherservice.hpp line 38). -/
def kInvalidTimeoutPublisherHandle : Int := -1

/-- `TimeoutPublisherService::ScheduleTimeoutDispatcher` (lines 54–67):
store the dispatcher in the handle's slot (asserted empty; `SetTimeout` and
`Start` program the embedder's timer and have no service-visible state). -/
def scheduleTimeoutDispatcher (s : TimeoutSvc) (d : TDispatcher) (h : Nat) :
    TimeoutSvc :=
  ⟨s.dispatchers.set h (some d)⟩

/-- `TimeoutPublisherService::CancelPublishOnTimeout` (lines 78–96): if the
slot holds a dispatcher, cancel the embedder timer, delete the dispatcher
and empty the slot; otherwise do nothing. -/
def cancelPublishOnTimeout (s : TimeoutSvc) (h : Nat) : TimeoutSvc :=
  match s.dispatchers.getD h none with
  | some _ => ⟨s.dispatchers.set h none⟩
  | none => s

/-- `TimeoutPublisherService::TimeoutExpired` (lines 98–114): if the slot
holds a dispatcher, dispatch it (pushing its value into the graph — the
returned list) and empty the slot; on an empty slot nothing is pushed. -/
def timeoutExpired (s : TimeoutSvc) (h : Nat) : TimeoutSvc × List (Nat × Val) :=
  match s.dispatchers.getD h none with
  | some d => (⟨s.dispatchers.set h none⟩, [(d.topic, d.val)])
  | none => (s, [])

/-- `TimeoutPublisherService::HasTimeoutExpired` (lines 116–122): true iff
the slot is empty. -/
def hasTimeoutExpired (s : TimeoutSvc) (h : Nat) : Bool :=
  s.dispatchers.getD h none = none

/-- The service operations that can run between two handle acquisitions;
none of them changes the number of slots. -/
inductive SvcOp where
  | schedule (d : TDispatcher) (h : Nat)
  | cancel (h : Nat)
  | expire (h : Nat)

/-- Apply one service operation. -/
def applySvcOp (s : TimeoutSvc) : SvcOp → TimeoutSvc
  | .schedule d h => scheduleTimeoutDispatcher s d h
  | .cancel h => cancelPublishOnTimeout s h
  | .expire h => (timeoutExpired s h).1

/-- Apply a sequence of service operations. -/
def runSvcOps (s : TimeoutSvc) (ops : List SvcOp) : TimeoutSvc :=
  ops.foldl applySvcOp s

/-! ### Definitions used by the topological-sort correctness proof -/

/-- Rank of a vertex search state; DFS marks only ever increase it. -/
def vrank : VState → Nat
  | .clear => 0
  | .processing => 1
  | .done => 2

/-- Pointwise mark monotonicity between two mark assignments. -/
def MonoMarks (σ₁ σ₂ : Nat → VState) : Prop :=
  ∀ w, vrank (σ₁ w) ≤ vrank (σ₂ w)

/-- Two mark assignments agree on which vertices are Processing. -/
def ProcAgree (σ₁ σ₂ : Nat → VState) : Prop :=
  ∀ w, σ₂ w = .processing ↔ σ₁ w = .processing

/-- Number of Clear vertices of the list; the DFS fuel bound. -/
def clearCount (ord : List Nat) (σ : Nat → VState) : Nat :=
  ord.countP fun v => σ v == .clear

/-- The invariant of `DFS_visit`'s marks and `sorted` accumulator:
`sorted` holds exactly the Done vertices, without duplicates; Done
vertices are graph vertices, their out-neighbourhoods are Done, and no
Done vertex lies on an immediate-edge cycle. -/
structure DfsInv (g : EGraph) (ord : List Nat) (st : DfsSt) : Prop where
  sortedDone : ∀ w, w ∈ st.sorted ↔ st.σ w = .done
  sortedNodup : st.sorted.Nodup
  doneMem : ∀ w, st.σ w = .done → w ∈ ord
  doneClosed : ∀ u, st.σ u = .done → ∀ w ∈ g.adj u, st.σ w = .done
  doneAcyclic : ∀ u, st.σ u = .done → ¬ Relation.TransGen (Edge g) u u

/-- What a recursive `DFS_visit` call guarantees, given fuel bound `F`:
started on a Clear graph vertex from an invariant state whose Processing
vertices all reach `v`, it either succeeds — preserving the invariant and
the Processing set, only raising marks, and finishing `v` — or it reports
a cycle that really exists; it never exhausts `F` fuel. -/
def VisitSpec (g : EGraph) (ord : List Nat) (F : Nat)
    (visit : Nat → DfsSt → DfsRes) : Prop :=
  ∀ v st, v ∈ ord → st.σ v = .clear → DfsInv g ord st →
    (∀ w, st.σ w = .processing → Relation.ReflTransGen (Edge g) w v) →
    clearCount ord st.σ < F →
    match visit v st with
    | .ok st2 => DfsInv g ord st2 ∧ MonoMarks st.σ st2.σ ∧
        ProcAgree st.σ st2.σ ∧ st2.σ v = .done
    | .cycle => ∃ z ∈ ord, Relation.TransGen (Edge g) z z
    | .noFuel => False

/-! ### Concrete pass-through graph used by witnesses: topic 0 feeds
detector 1, which republishes incremented values into topic 2. -/

/-- Witness graph: `0` is a topic, `1` a detector subscribed to `0` and
publishing to topic `2`. -/
def wG : EGraph :=
  { kind := fun i => if i = 1 then .detectorV else .topicV
    adj := fun i => if i = 0 then [1] else if i = 1 then [2] else []
    fadj := fun _ => []
    subs := fun i => if i = 1 then [0] else []
    behave := fun i ins => if i = 1 then [(2, ins.headD 0 + 1)] else [] }

/-- Witness state: sorted vertex list, one queued input for topic 0. -/
def wSt : GraphSt :=
  { order := [0, 1, 2], dirty := false, σ := fun _ => .clear,
    vals := fun _ => [], queue := [(0, 5)], output := [] }

/-- Witness state for the sort: unsorted vertex list, dirty graph. -/
def wStDirty : GraphSt :=
  { order := [2, 1, 0], dirty := true, σ := fun _ => .clear,
    vals := fun _ => [], queue := [(0, 5)], output := [] }

/-! ## Generic state-update lemmas -/

theorem foldl_update_notMem (c : VState) (l : List Nat) (f : Nat → VState)
    (v : Nat) (hv : v ∉ l) :
    (l.foldl (fun f i => Function.update f i c) f) v = f v := by
  induction l generalizing f with
  | nil => rfl
  | cons i rest ih =>
    rw [List.foldl_cons, ih _ (fun h => hv (List.mem_cons_of_mem i h))]
    exact Function.update_noteq
      (fun h => hv (by rw [h]; exact List.mem_cons_self i rest)) _ _

theorem foldl_update_mem (c : VState) (l : List Nat) (f : Nat → VState)
    (v : Nat) (hv : v ∈ l) :
    (l.foldl (fun f i => Function.update f i c) f) v = c := by
  induction l generalizing f with
  | nil => exact absurd hv (List.not_mem_nil v)
  | cons i rest ih =>
    rw [List.foldl_cons]
    by_cases hr : v ∈ rest
    · exact ih _ hr
    · have hvi : v = i := by
        rcases List.mem_cons.mp hv with h | h
        · exact h
        · exact absurd h hr
      rw [foldl_update_notMem c rest _ v hr, hvi, Function.update_same]

/-! ## Metadata preservation through a pass -/

theorem topicPublish_meta (st : GraphSt) (t : Nat) (x : Val) :
    (topicPublish st t x).order = st.order ∧
    (topicPublish st t x).dirty = st.dirty ∧
    (topicPublish st t x).queue = st.queue ∧
    (topicPublish st t x).output = st.output := by
  unfold topicPublish
  split <;> exact ⟨rfl, rfl, rfl, rfl⟩

theorem pubsFoldl_meta (pubs : List (Nat × Val)) (st : GraphSt) :
    ((pubs.foldl (fun s p => topicPublish s p.1 p.2) st).order = st.order ∧
     (pubs.foldl (fun s p => topicPublish s p.1 p.2) st).dirty = st.dirty ∧
     (pubs.foldl (fun s p => topicPublish s p.1 p.2) st).queue = st.queue ∧
     (pubs.foldl (fun s p => topicPublish s p.1 p.2) st).output
       = st.output) := by
  induction pubs generalizing st with
  | nil => exact ⟨rfl, rfl, rfl, rfl⟩
  | cons p ps ih =>
    rw [List.foldl_cons]
    obtain ⟨h1, h2, h3, h4⟩ := ih (topicPublish st p.1 p.2)
    obtain ⟨g1, g2, g3, g4⟩ := topicPublish_meta st p.1 p.2
    exact ⟨h1.trans g1, h2.trans g2, h3.trans g3, h4.trans g4⟩

theorem processVertex_meta (g : EGraph) (st : GraphSt) (i : Nat) :
    (processVertex g st i).order = st.order ∧
    (processVertex g st i).dirty = st.dirty ∧
    (processVertex g st i).queue = st.queue ∧
    (processVertex g st i).output = st.output := by
  cases hk : g.kind i with
  | topicV =>
    by_cases h1 : st.σ i = .clear
    · simp [processVertex, hk, h1]
    · by_cases h2 : st.σ i = .processing
      · simp [processVertex, hk, h1, h2]
      · simp [processVertex, hk, h1, h2]
  | detectorV =>
    by_cases h1 : st.σ i = .processing
    · simp only [processVertex, hk, if_pos h1, setDone]
      obtain ⟨m1, m2, m3, m4⟩ := pubsFoldl_meta
        (g.behave i (gatherInputs g st i)) st
      exact ⟨m1, m2, m3, m4⟩
    · simp [processVertex, hk, h1]

theorem traverse_meta (g : EGraph) (rest : List Nat) (st : GraphSt) :
    (rest.foldl (processVertex g) st).order = st.order ∧
    (rest.foldl (processVertex g) st).dirty = st.dirty ∧
    (rest.foldl (processVertex g) st).queue = st.queue ∧
    (rest.foldl (processVertex g) st).output = st.output := by
  induction rest generalizing st with
  | nil => exact ⟨rfl, rfl, rfl, rfl⟩
  | cons i tail ih =>
    rw [List.foldl_cons]
    obtain ⟨h1, h2, h3, h4⟩ := ih (processVertex g st i)
    obtain ⟨g1, g2, g3, g4⟩ := processVertex_meta g st i
    exact ⟨h1.trans g1, h2.trans g2, h3.trans g3, h4.trans g4⟩

/-! ## Publish-fold lemmas -/

theorem pubsFoldl_untouched (pubs : List (Nat × Val)) (st : GraphSt)
    (v : Nat) (hv : ∀ x, (v, x) ∉ pubs) :
    (pubs.foldl (fun s p => topicPublish s p.1 p.2) st).σ v = st.σ v ∧
    (pubs.foldl (fun s p => topicPublish s p.1 p.2) st).vals v
      = st.vals v := by
  induction pubs generalizing st with
  | nil => exact ⟨rfl, rfl⟩
  | cons p ps ih =>
    have hvp : v ≠ p.1 := by
      intro h
      exact hv p.2 (by rw [h]; exact List.mem_cons_self p ps)
    have hps : ∀ x, (v, x) ∉ ps :=
      fun x h => hv x (List.mem_cons_of_mem p h)
    rw [List.foldl_cons]
    obtain ⟨h1, h2⟩ := ih (topicPublish st p.1 p.2) hps
    refine ⟨h1.trans ?_, h2.trans ?_⟩ <;>
      · unfold topicPublish
        split
        · first
            | rfl
            | exact Function.update_noteq hvp _ _
        · exact Function.update_noteq hvp _ _

theorem pubsFoldl_touched (pubs : List (Nat × Val)) (st : GraphSt)
    (v : Nat) (hv : ∃ x, (v, x) ∈ pubs) :
    (pubs.foldl (fun s p => topicPublish s p.1 p.2) st).σ v
      = .processing := by
  induction pubs generalizing st with
  | nil => exact absurd hv.choose_spec (List.not_mem_nil _)
  | cons p ps ih =>
    rw [List.foldl_cons]
    by_cases hex : ∃ x, (v, x) ∈ ps
    · exact ih _ hex
    · obtain ⟨x, hx⟩ := hv
      have hvp : v = p.1 := by
        rcases List.mem_cons.mp hx with h | h
        · exact congrArg Prod.fst h
        · exact absurd ⟨x, h⟩ hex
      have hstep : (topicPublish st p.1 p.2).σ v = .processing := by
        unfold topicPublish
        split
        · next hproc => rw [hvp]; exact hvp ▸ hproc
        · rw [hvp]
          exact Function.update_same _ _ _
      have hnot : ∀ x, (v, x) ∉ ps := fun x h => hex ⟨x, h⟩
      rw [(pubsFoldl_untouched ps (topicPublish st p.1 p.2) v hnot).1]
      exact hstep

/-! ## The traversal invariant (no Processing vertex survives; Clear topics
hold no values) -/

theorem traverse_inv (g : EGraph) (order₀ : List Nat)
    (hpub : PubOk g order₀) :
    ∀ (rest : List Nat) (st : GraphSt), TopoOk g rest →
    (∀ v ∈ rest, v ∈ order₀) →
    (∀ v ∈ order₀, st.σ v = .processing → v ∈ rest) →
    (∀ v ∈ order₀, g.kind v = .topicV → st.σ v = .clear →
      v ∈ rest ∨ st.vals v = []) →
    (∀ v ∈ order₀, (rest.foldl (processVertex g) st).σ v ≠ .processing) ∧
    (∀ v ∈ order₀, g.kind v = .topicV →
      (rest.foldl (processVertex g) st).σ v = .clear →
      (rest.foldl (processVertex g) st).vals v = []) := by
  intro rest
  induction rest with
  | nil =>
    intro st _ _ hP hC
    refine ⟨fun v hv hproc => ?_, fun v hv hk hclear => ?_⟩
    · exact absurd (hP v hv hproc) (List.not_mem_nil v)
    · rcases hC v hv hk hclear with h | h
      · exact absurd h (List.not_mem_nil v)
      · exact h
  | cons i rest' ih =>
    intro st htopo hsub hP hC
    have hadj : ∀ j ∈ g.adj i, j ∈ rest' := htopo.1
    have htopo' : TopoOk g rest' := htopo.2
    have hsub' : ∀ v ∈ rest', v ∈ order₀ :=
      fun v hv => hsub v (List.mem_cons_of_mem i hv)
    have hstep :
        (∀ v ∈ order₀, (processVertex g st i).σ v = .processing →
          v ∈ rest') ∧
        (∀ v ∈ order₀, g.kind v = .topicV →
          (processVertex g st i).σ v = .clear →
          v ∈ rest' ∨ (processVertex g st i).vals v = []) := by
      cases hk : g.kind i with
      | topicV =>
        cases hσ : st.σ i with
        | clear =>
          have hpv : processVertex g st i =
              { st with vals := Function.update st.vals i [] } := by
            simp [processVertex, hk, hσ]
          rw [hpv]
          dsimp only
          constructor
          · intro v hv hproc
            rcases List.mem_cons.mp (hP v hv hproc) with h | h
            · exact absurd (h ▸ hproc) (by simp [hσ])
            · exact h
          · intro v hv hkv hclear
            by_cases hvi : v = i
            · right
              rw [hvi, Function.update_same]
            · rcases hC v hv hkv hclear with h | h
              · rcases List.mem_cons.mp h with h2 | h2
                · exact absurd h2 hvi
                · exact Or.inl h2
              · right
                simpa [Function.update_noteq hvi] using h
        | processing =>
          have hpv : processVertex g st i =
              { st with σ := ((g.adj i).foldl
                  (fun f c => Function.update f c .processing)
                  (Function.update st.σ i .done)) } := by
            simp [processVertex, hk, hσ]
          rw [hpv]
          dsimp only
          constructor
          · intro v hv hproc
            by_cases hmem : v ∈ g.adj i
            · exact hadj v hmem
            · rw [foldl_update_notMem _ _ _ _ hmem] at hproc
              by_cases hvi : v = i
              · rw [hvi, Function.update_same] at hproc
                exact absurd hproc (by simp)
              · rw [Function.update_noteq hvi] at hproc
                rcases List.mem_cons.mp (hP v hv hproc) with h | h
                · exact absurd h hvi
                · exact h
          · intro v hv hkv hclear
            by_cases hmem : v ∈ g.adj i
            · rw [foldl_update_mem _ _ _ _ hmem] at hclear
              exact absurd hclear (by simp)
            · rw [foldl_update_notMem _ _ _ _ hmem] at hclear
              by_cases hvi : v = i
              · rw [hvi, Function.update_same] at hclear
                exact absurd hclear (by simp)
              · rw [Function.update_noteq hvi] at hclear
                rcases hC v hv hkv hclear with h | h
                · rcases List.mem_cons.mp h with h2 | h2
                  · exact absurd h2 hvi
                  · exact Or.inl h2
                · exact Or.inr h
        | done =>
          have hpv : processVertex g st i = st := by
            simp [processVertex, hk, hσ]
          rw [hpv]
          constructor
          · intro v hv hproc
            rcases List.mem_cons.mp (hP v hv hproc) with h | h
            · exact absurd (h ▸ hproc) (by simp [hσ])
            · exact h
          · intro v hv hkv hclear
            rcases hC v hv hkv hclear with h | h
            · rcases List.mem_cons.mp h with h2 | h2
              · exact absurd (h2 ▸ hclear) (by simp [hσ])
              · exact Or.inl h2
            · exact Or.inr h
      | detectorV =>
        by_cases hσ : st.σ i = .processing
        · have hpv : processVertex g st i =
              setDone ((g.behave i (gatherInputs g st i)).foldl
                (fun s p => topicPublish s p.1 p.2) st) i := by
            simp [processVertex, hk, hσ]
          have htgt : ∀ t x, (t, x) ∈ g.behave i (gatherInputs g st i) →
              t ∈ g.adj i :=
            fun t x h =>
              hpub i (hsub i (List.mem_cons_self i rest')) hk
                (gatherInputs g st i) t x h
          rw [hpv]
          dsimp only [setDone]
          constructor
          · intro v hv hproc
            by_cases hvi : v = i
            · rw [hvi, Function.update_same] at hproc
              exact absurd hproc (by simp)
            · rw [Function.update_noteq hvi] at hproc
              by_cases hex : ∃ x,
                  (v, x) ∈ g.behave i (gatherInputs g st i)
              · obtain ⟨x, hx⟩ := hex
                exact hadj v (htgt v x hx)
              · have hnot : ∀ x,
                    (v, x) ∉ g.behave i (gatherInputs g st i) :=
                  fun x h => hex ⟨x, h⟩
                rw [(pubsFoldl_untouched _ st v hnot).1] at hproc
                rcases List.mem_cons.mp (hP v hv hproc) with h | h
                · exact absurd h hvi
                · exact h
          · intro v hv hkv hclear
            by_cases hvi : v = i
            · rw [hvi, Function.update_same] at hclear
              exact absurd hclear (by simp)
            · rw [Function.update_noteq hvi] at hclear
              by_cases hex : ∃ x,
                  (v, x) ∈ g.behave i (gatherInputs g st i)
              · rw [pubsFoldl_touched _ st v hex] at hclear
                exact absurd hclear (by simp)
              · have hnot : ∀ x,
                    (v, x) ∉ g.behave i (gatherInputs g st i) :=
                  fun x h => hex ⟨x, h⟩
                obtain ⟨hσu, hvu⟩ := pubsFoldl_untouched _ st v hnot
                rw [hσu] at hclear
                rcases hC v hv hkv hclear with h | h
                · rcases List.mem_cons.mp h with h2 | h2
                  · exact absurd h2 hvi
                  · exact Or.inl h2
                · right
                  simpa [hvu] using h
        · have hpv : processVertex g st i = st := by
            simp [processVertex, hk, hσ]
          rw [hpv]
          constructor
          · intro v hv hproc
            rcases List.mem_cons.mp (hP v hv hproc) with h | h
            · exact absurd (h ▸ hproc) hσ
            · exact h
          · intro v hv hkv hclear
            rcases hC v hv hkv hclear with h | h
            · rcases List.mem_cons.mp h with h2 | h2
              · subst h2
                rw [hk] at hkv
                exact absurd hkv (by decide)
              · exact Or.inl h2
            · exact Or.inr h
    rw [List.foldl_cons]
    exact ih (processVertex g st i) htopo' hsub' hstep.1 hstep.2

/-! ## Pass assembly lemmas -/

theorem clearContexts_mem (st : GraphSt) (v : Nat) (hv : v ∈ st.order) :
    (clearContexts st).σ v = .clear :=
  foldl_update_mem .clear st.order st.σ v hv

theorem dequeueDispatch_meta (s : GraphSt) :
    (dequeueDispatch s).order = s.order ∧
    (dequeueDispatch s).dirty = s.dirty ∧
    (dequeueDispatch s).output = s.output := by
  unfold dequeueDispatch
  cases s.queue with
  | nil => exact ⟨rfl, rfl, rfl⟩
  | cons p rest =>
    obtain ⟨h1, h2, _, h4⟩ := topicPublish_meta
      { s with queue := rest } p.1 p.2
    exact ⟨h1, h2, h4⟩

theorem dequeueDispatch_queue_cons (s : GraphSt) (t : Nat) (x : Val)
    (rest : List (Nat × Val)) (hq : s.queue = (t, x) :: rest) :
    (dequeueDispatch s).queue = rest := by
  unfold dequeueDispatch
  rw [hq]
  exact (topicPublish_meta { s with queue := rest } t x).2.2.1

theorem dequeueDispatch_empty (s : GraphSt) (hq : s.queue = []) :
    dequeueDispatch s = s := by
  unfold dequeueDispatch
  rw [hq]

/-- When the graph is not dirty, `EvaluateGraph` is a successful pass. -/
theorem evaluate_not_dirty (g : EGraph) (st : GraphSt)
    (hd : st.dirty = false) :
    EvaluateGraph g st = (.Success, evalPass g st) := by
  simp [EvaluateGraph, hd]

theorem flatMap_eq_nil (l : List Nat) (f : Nat → List Val)
    (h : ∀ a ∈ l, f a = []) : l.flatMap f = [] := by
  induction l with
  | nil => rfl
  | cons a rest ih =>
    rw [List.flatMap_cons, h a (List.mem_cons_self a rest),
      ih (fun b hb => h b (List.mem_cons_of_mem a hb))]
    rfl

theorem flatMap_congr_mem (l : List Nat) (f f' : Nat → List Val)
    (h : ∀ a ∈ l, f a = f' a) : l.flatMap f = l.flatMap f' := by
  induction l with
  | nil => rfl
  | cons a rest ih =>
    rw [List.flatMap_cons, List.flatMap_cons, h a (List.mem_cons_self a rest),
      ih (fun b hb => h b (List.mem_cons_of_mem a hb))]

/-! ## All-Clear traversal (the empty-queue pass) -/

theorem traverseVertices_meta (g : EGraph) (s : GraphSt) :
    (traverseVertices g s).order = s.order ∧
    (traverseVertices g s).dirty = s.dirty ∧
    (traverseVertices g s).queue = s.queue ∧
    (traverseVertices g s).output = s.output :=
  traverse_meta g s.order s

theorem traverse_allClear (g : EGraph) :
    ∀ (rest : List Nat) (st : GraphSt),
    (∀ v ∈ rest, st.σ v = .clear) →
    (∀ v, (rest.foldl (processVertex g) st).σ v = st.σ v) ∧
    (∀ v ∈ rest, g.kind v = .topicV →
      (rest.foldl (processVertex g) st).vals v = []) ∧
    (∀ v, (rest.foldl (processVertex g) st).vals v = st.vals v ∨
      (rest.foldl (processVertex g) st).vals v = []) ∧
    (rest.foldl (processVertex g) st).queue = st.queue := by
  intro rest
  induction rest with
  | nil =>
    intro st _
    exact ⟨fun v => rfl, fun v hv => absurd hv (List.not_mem_nil v),
      fun v => Or.inl rfl, rfl⟩
  | cons i rest' ih =>
    intro st hall
    have hσi : st.σ i = .clear := hall i (List.mem_cons_self i rest')
    cases hk : g.kind i with
    | topicV =>
      have hpv : processVertex g st i =
          { st with vals := Function.update st.vals i [] } := by
        simp [processVertex, hk, hσi]
      rw [List.foldl_cons, hpv]
      have hall2 : ∀ v ∈ rest',
          ({ st with vals := Function.update st.vals i [] } : GraphSt).σ v
            = .clear :=
        fun v hv => hall v (List.mem_cons_of_mem i hv)
      obtain ⟨A, B, C, D⟩ := ih _ hall2
      refine ⟨fun v => A v, ?_, ?_, D⟩
      · intro v hv hkv
        rcases List.mem_cons.mp hv with hvi | hvmem
        · subst hvi
          rcases C v with hc | hc
          · rw [hc]
            exact Function.update_same _ _ _
          · exact hc
        · exact B v hvmem hkv
      · intro v
        rcases C v with hc | hc
        · rw [hc]
          dsimp only
          by_cases hvi : v = i
          · subst hvi
            exact Or.inr (Function.update_same _ _ _)
          · exact Or.inl (Function.update_noteq hvi _ _)
        · exact Or.inr hc
    | detectorV =>
      have hpv : processVertex g st i = st := by
        simp [processVertex, hk, hσi]
      rw [List.foldl_cons, hpv]
      have hall2 : ∀ v ∈ rest', st.σ v = .clear :=
        fun v hv => hall v (List.mem_cons_of_mem i hv)
      obtain ⟨A, B, C, D⟩ := ih st hall2
      refine ⟨A, ?_, C, D⟩
      intro v hv hkv
      rcases List.mem_cons.mp hv with hvi | hvmem
      · subst hvi
        rw [hk] at hkv
        exact absurd hkv (by decide)
      · exact B v hvmem hkv

/-! ## Claim theorems: the evaluation pass -/

/-- C2: with the graph already sorted, every `EvaluateGraph` call consumes
exactly the front entry of the input queue when the queue is non-empty, and
with an empty queue it consumes nothing, returns `ErrorType_Success`, and
produces an empty output list. -/
theorem evaluate_consumes_one_input (g : EGraph) (st : GraphSt)
    (hd : st.dirty = false) :
    (∀ t x rest, st.queue = (t, x) :: rest →
      (EvaluateGraph g st).2.queue = rest) ∧
    (st.queue = [] →
      (EvaluateGraph g st).1 = .Success ∧
      (EvaluateGraph g st).2.queue = [] ∧
      (EvaluateGraph g st).2.output = []) := by
  rw [evaluate_not_dirty g st hd]
  have hqeq : (evalPass g st).queue =
      (dequeueDispatch (clearContexts st)).queue := by
    show (composeOutputList g (traverseVertices g
      (dequeueDispatch (clearContexts st)))).queue = _
    rw [show (composeOutputList g (traverseVertices g
      (dequeueDispatch (clearContexts st)))).queue =
      (traverseVertices g (dequeueDispatch (clearContexts st))).queue
      from rfl]
    exact (traverseVertices_meta g (dequeueDispatch (clearContexts st))).2.2.1
  constructor
  · intro t x rest hq
    show (evalPass g st).queue = rest
    rw [hqeq]
    exact dequeueDispatch_queue_cons (clearContexts st) t x rest hq
  · intro hq
    have hde : dequeueDispatch (clearContexts st) = clearContexts st :=
      dequeueDispatch_empty (clearContexts st) hq
    have hallclear : ∀ v ∈ (clearContexts st).order,
        (clearContexts st).σ v = .clear :=
      fun v hv => clearContexts_mem st v hv
    obtain ⟨A, B, C, D⟩ := traverse_allClear g
      (clearContexts st).order (clearContexts st) hallclear
    refine ⟨rfl, ?_, ?_⟩
    · show (evalPass g st).queue = []
      rw [hqeq, hde]
      exact hq
    · show (evalPass g st).output = []
      show (composeOutputList g (traverseVertices g
        (dequeueDispatch (clearContexts st)))).output = []
      rw [hde]
      show (traverseVertices g (clearContexts st)).order.flatMap _ = []
      rw [(traverseVertices_meta g (clearContexts st)).1]
      refine flatMap_eq_nil _ _ ?_
      intro a ha
      by_cases hk : g.kind a = .topicV
      · rw [if_pos hk]
        exact B a ha hk
      · rw [if_neg hk]

/-- C2 witness: the pass-through graph with one queued input, and the same
state with an empty queue. -/
theorem evaluate_consumes_one_input_witness :
    wSt.dirty = false ∧
    ((∀ t x rest, wSt.queue = (t, x) :: rest →
        (EvaluateGraph wG wSt).2.queue = rest) ∧
     (wSt.queue = [] →
        (EvaluateGraph wG wSt).1 = .Success ∧
        (EvaluateGraph wG wSt).2.queue = [] ∧
        (EvaluateGraph wG wSt).2.output = [])) :=
  ⟨rfl, evaluate_consumes_one_input wG wSt rfl⟩

/-- C4: after a successful `EvaluateGraph` on a well-formed graph (sorted
vertex list topologically ordered, detectors publishing only along their
out-edges), every vertex of the graph ends the pass in state Clear or
Done; none remains Processing. -/
theorem evaluate_no_processing_after (g : EGraph) (st : GraphSt)
    (hd : st.dirty = false) (ht : TopoOk g st.order)
    (hpub : PubOk g st.order) :
    (EvaluateGraph g st).1 = .Success ∧
    ∀ v ∈ st.order, (EvaluateGraph g st).2.σ v = .clear ∨
      (EvaluateGraph g st).2.σ v = .done := by
  rw [evaluate_not_dirty g st hd]
  refine ⟨rfl, ?_⟩
  intro v hv
  have horder : (dequeueDispatch (clearContexts st)).order = st.order :=
    (dequeueDispatch_meta (clearContexts st)).1
  have hnp := (traverse_inv g st.order hpub st.order
        (dequeueDispatch (clearContexts st)) ht (fun a ha => ha)
        (fun a ha _ => ha) (fun a ha _ _ => Or.inl ha)).1 v hv
  have hσeq : (evalPass g st).σ v =
      ((dequeueDispatch (clearContexts st)).order.foldl
        (processVertex g) (dequeueDispatch (clearContexts st))).σ v := rfl
  rw [horder] at hσeq
  show (evalPass g st).σ v = .clear ∨ (evalPass g st).σ v = .done
  cases hc : (st.order.foldl (processVertex g)
      (dequeueDispatch (clearContexts st))).σ v with
  | clear => exact Or.inl (hσeq.trans hc)
  | processing => exact absurd hc hnp
  | done => exact Or.inr (hσeq.trans hc)

/-- C4 witness: the pass-through graph. -/
theorem evaluate_no_processing_after_witness :
    (wSt.dirty = false ∧ TopoOk wG wSt.order ∧ PubOk wG wSt.order) ∧
    ((EvaluateGraph wG wSt).1 = .Success ∧
     ∀ v ∈ wSt.order, (EvaluateGraph wG wSt).2.σ v = .clear ∨
       (EvaluateGraph wG wSt).2.σ v = .done) :=
  ⟨⟨rfl, by decide, by
      intro i hi hk ins t x hmem
      fin_cases hi <;> simp_all [wG]⟩,
    evaluate_no_processing_after wG wSt rfl (by decide) (by
      intro i hi hk ins t x hmem
      fin_cases hi <;> simp_all [wG])⟩

/-- C5 counterexample: between passes topics are not Clear-and-empty.
After `EvaluateGraph` returns on the pass-through graph (one input pushed
into topic 0), topic 0 is Done and still holds its value `5` — refuting
"between evaluation passes every topic's pass-state is Clear and its value
sequence is empty".  The states and values are only reset lazily by the
next pass. -/
theorem evaluate_leaves_done_topic_with_values :
    (EvaluateGraph wG wSt).1 = .Success ∧
    (EvaluateGraph wG wSt).2.σ 0 = .done ∧
    (EvaluateGraph wG wSt).2.vals 0 = [5] := by
  refine ⟨rfl, rfl, rfl⟩

/-- C5 (amended): after `EvaluateGraph` returns on a well-formed graph,
every topic is either Clear with an empty value sequence or Done (holding
this pass's values); mid-pass, values are held only by Processing or Done
topics, and the Clear-and-empty reset happens at the start of the next
pass, not at the end of the current one. -/
theorem evaluate_topic_clear_empty_or_done (g : EGraph) (st : GraphSt)
    (hd : st.dirty = false) (ht : TopoOk g st.order)
    (hpub : PubOk g st.order) :
    ∀ v ∈ st.order, g.kind v = .topicV →
      ((EvaluateGraph g st).2.σ v = .clear ∧
        (EvaluateGraph g st).2.vals v = []) ∨
      (EvaluateGraph g st).2.σ v = .done := by
  rw [evaluate_not_dirty g st hd]
  intro v hv hk
  have horder : (dequeueDispatch (clearContexts st)).order = st.order :=
    (dequeueDispatch_meta (clearContexts st)).1
  obtain ⟨hnp, hcv⟩ := traverse_inv g st.order hpub st.order
    (dequeueDispatch (clearContexts st)) ht (fun a ha => ha)
    (fun a ha _ => ha) (fun a ha _ _ => Or.inl ha)
  have hσeq : (evalPass g st).σ v =
      ((dequeueDispatch (clearContexts st)).order.foldl
        (processVertex g) (dequeueDispatch (clearContexts st))).σ v := rfl
  have hveq : (evalPass g st).vals v =
      ((dequeueDispatch (clearContexts st)).order.foldl
        (processVertex g) (dequeueDispatch (clearContexts st))).vals v := rfl
  rw [horder] at hσeq hveq
  show ((evalPass g st).σ v = .clear ∧ (evalPass g st).vals v = []) ∨
    (evalPass g st).σ v = .done
  cases hc : (st.order.foldl (processVertex g)
      (dequeueDispatch (clearContexts st))).σ v with
  | clear =>
    exact Or.inl ⟨hσeq.trans hc, hveq.trans (hcv v hv hk hc)⟩
  | processing => exact absurd hc (hnp v hv)
  | done => exact Or.inr (hσeq.trans hc)

/-- C5 amended-theorem witness: the pass-through graph, topic 0. -/
theorem evaluate_topic_clear_empty_or_done_witness :
    (wSt.dirty = false ∧ TopoOk wG wSt.order ∧ PubOk wG wSt.order) ∧
    (∀ v ∈ wSt.order, wG.kind v = .topicV →
      ((EvaluateGraph wG wSt).2.σ v = .clear ∧
        (EvaluateGraph wG wSt).2.vals v = []) ∨
      (EvaluateGraph wG wSt).2.σ v = .done) :=
  ⟨⟨rfl, by decide, by
      intro i hi hk ins t x hmem
      fin_cases hi <;> simp_all [wG]⟩,
    evaluate_topic_clear_empty_or_done wG wSt rfl (by decide) (by
      intro i hi hk ins t x hmem
      fin_cases hi <;> simp_all [wG])⟩

/-- C3: after a successful `EvaluateGraph` on a well-formed graph, the
output list is exactly the concatenation, over the (topologically sorted)
vertex list, of the value sequences of the topics whose pass-state is Done
— each Done topic contributes every value it holds, once, in publish
order, grouped per topic in topological order, and topics not in Done
contribute no entries. -/
theorem evaluate_output_list_spec (g : EGraph) (st : GraphSt)
    (hd : st.dirty = false) (ht : TopoOk g st.order)
    (hpub : PubOk g st.order) :
    (EvaluateGraph g st).1 = .Success ∧
    (EvaluateGraph g st).2.output =
      (EvaluateGraph g st).2.order.flatMap (fun i =>
        if g.kind i = .topicV ∧ (EvaluateGraph g st).2.σ i = .done
        then (EvaluateGraph g st).2.vals i else []) := by
  rw [evaluate_not_dirty g st hd]
  refine ⟨rfl, ?_⟩
  have horder : (dequeueDispatch (clearContexts st)).order = st.order :=
    (dequeueDispatch_meta (clearContexts st)).1
  obtain ⟨hnp, hcv⟩ := traverse_inv g st.order hpub st.order
    (dequeueDispatch (clearContexts st)) ht (fun a ha => ha)
    (fun a ha _ => ha) (fun a ha _ _ => Or.inl ha)
  have hTfold : traverseVertices g (dequeueDispatch (clearContexts st)) =
      st.order.foldl (processVertex g)
        (dequeueDispatch (clearContexts st)) := by
    unfold traverseVertices
    rw [horder]
  have hOrdT : (traverseVertices g
      (dequeueDispatch (clearContexts st))).order = st.order := by
    rw [(traverseVertices_meta g _).1, horder]
  have hout : ((ErrorType.Success, evalPass g st)).2.output =
      (traverseVertices g (dequeueDispatch (clearContexts st))).order.flatMap
        (fun i => if g.kind i = .topicV then
          (traverseVertices g (dequeueDispatch (clearContexts st))).vals i
        else []) := rfl
  have hord2 : ((ErrorType.Success, evalPass g st)).2.order =
      (traverseVertices g (dequeueDispatch (clearContexts st))).order := rfl
  have hσ2 : ∀ i, ((ErrorType.Success, evalPass g st)).2.σ i =
      (traverseVertices g (dequeueDispatch (clearContexts st))).σ i :=
    fun _ => rfl
  have hv2 : ∀ i, ((ErrorType.Success, evalPass g st)).2.vals i =
      (traverseVertices g (dequeueDispatch (clearContexts st))).vals i :=
    fun _ => rfl
  rw [hout, hord2]
  refine flatMap_congr_mem _ _ _ ?_
  intro a ha
  rw [hOrdT] at ha
  rw [hσ2 a, hv2 a]
  by_cases hk : g.kind a = .topicV
  · have hnpa : (traverseVertices g
        (dequeueDispatch (clearContexts st))).σ a ≠ .processing := by
      rw [hTfold]
      exact hnp a ha
    cases hc : (traverseVertices g
        (dequeueDispatch (clearContexts st))).σ a with
    | clear =>
      have hva : (traverseVertices g
          (dequeueDispatch (clearContexts st))).vals a = [] := by
        rw [hTfold]
        refine hcv a ha hk ?_
        rw [← hTfold]
        exact hc
      rw [if_pos hk, if_neg (fun hcontra => absurd hcontra.2 (by decide)),
        hva]
    | processing => exact absurd hc hnpa
    | done =>
      rw [if_pos hk, if_pos ⟨hk, rfl⟩]
  · rw [if_neg hk, if_neg (fun hcontra => hk hcontra.1)]

/-- C3 witness: the pass-through graph; the output list is the Done
topics' values in topological order. -/
theorem evaluate_output_list_spec_witness :
    (wSt.dirty = false ∧ TopoOk wG wSt.order ∧ PubOk wG wSt.order) ∧
    ((EvaluateGraph wG wSt).1 = .Success ∧
     (EvaluateGraph wG wSt).2.output =
       (EvaluateGraph wG wSt).2.order.flatMap (fun i =>
         if wG.kind i = .topicV ∧ (EvaluateGraph wG wSt).2.σ i = .done
         then (EvaluateGraph wG wSt).2.vals i else [])) :=
  ⟨⟨rfl, by decide, by
      intro i hi hk ins t x hmem
      fin_cases hi <;> simp_all [wG]⟩,
    evaluate_output_list_spec wG wSt rfl (by decide) (by
      intro i hi hk ins t x hmem
      fin_cases hi <;> simp_all [wG])⟩

/-! ## Snapshot lemmas -/

theorem updateValuesGo_fst (l : List TS) (m : Int → Option TS) (prev : Int)
    (dup : Bool) (i : Int) (hi : i ≠ kAnonymousTopicState) :
    (updateValuesGo m prev dup l).1 i =
      match (l.filter fun t => t.id = i).getLast? with
      | some w => some w
      | none => m i := by
  induction l generalizing m prev dup with
  | nil => rfl
  | cons t rest ih =>
    by_cases ht : t.id = kAnonymousTopicState
    · have hne : ¬ (t.id = i) := by rw [ht]; exact fun h => hi h.symm
      simp only [updateValuesGo, if_neg (not_not_intro ht)]
      rw [ih m prev dup, List.filter_cons_of_neg (by simpa using hne)]
    · simp only [updateValuesGo, if_pos ht]
      rw [ih]
      by_cases hti : t.id = i
      · rw [List.filter_cons_of_pos (by simpa using hti)]
        cases hfr : rest.filter fun s => s.id = i with
        | nil => subst hti; simp [Function.update_same]
        | cons b bs =>
          rw [List.getLast?_cons_cons]
          obtain ⟨w, hw⟩ := Option.isSome_iff_exists.mp
            (List.getLast?_isSome.mpr (List.cons_ne_nil b bs))
          rw [hw]
      · rw [List.filter_cons_of_neg (by simpa using hti)]
        rw [show Function.update m t.id (some t) i = m i from
          Function.update_noteq (fun h => hti h.symm) _ _]

theorem updateValuesGo_snd_true (l : List TS) (m : Int → Option TS)
    (prev : Int) : (updateValuesGo m prev true l).2 = true := by
  induction l generalizing m prev with
  | nil => rfl
  | cons t rest ih =>
    by_cases ht : t.id = kAnonymousTopicState
    · simp only [updateValuesGo, if_neg (not_not_intro ht)]
      exact ih m prev
    · simp only [updateValuesGo, if_pos ht, Bool.true_or]
      exact ih _ _

theorem updateValuesGo_fst_anon (l : List TS) (m : Int → Option TS)
    (prev : Int) (dup : Bool) :
    (updateValuesGo m prev dup l).1 kAnonymousTopicState =
      m kAnonymousTopicState := by
  induction l generalizing m prev dup with
  | nil => rfl
  | cons t rest ih =>
    by_cases ht : t.id = kAnonymousTopicState
    · simp only [updateValuesGo, if_neg (not_not_intro ht)]
      exact ih m prev dup
    · simp only [updateValuesGo, if_pos ht]
      rw [ih]
      exact Function.update_noteq (fun h => ht h.symm) _ _

/-! ## Timer-service lemmas -/

theorem applySvcOp_length (s : TimeoutSvc) (op : SvcOp) :
    (applySvcOp s op).dispatchers.length = s.dispatchers.length := by
  cases op with
  | schedule d h => simp [applySvcOp, scheduleTimeoutDispatcher]
  | cancel h =>
    simp only [applySvcOp, cancelPublishOnTimeout]
    cases s.dispatchers.getD h none <;> simp
  | expire h =>
    simp only [applySvcOp, timeoutExpired]
    cases s.dispatchers.getD h none <;> simp

theorem runSvcOps_length (ops : List SvcOp) (s : TimeoutSvc) :
    (runSvcOps s ops).dispatchers.length = s.dispatchers.length := by
  induction ops generalizing s with
  | nil => rfl
  | cons op rest ih =>
    simpa [runSvcOps, List.foldl_cons, applySvcOp_length]
      using (ih (applySvcOp s op)).trans (applySvcOp_length s op)

/-! ## Claim theorems: snapshot store -/

/-- C6: for every snapshot `s` built by extending `p` with an output list
`l`, `s.version = p.version + 1`; looking up a non-anonymous id `i` in `s`
yields the last entry of `l` carrying id `i` (later entries overwrite
earlier map contents) or `p`'s entry when `l` names no such entry;
anonymous values are ignored (the anonymous slot is never written). -/
theorem snapshot_extend_spec (p : Snapshot) (l : List TS) (i : Int)
    (hi : i ≠ kAnonymousTopicState) :
    (extendSnapshot p l).version = p.version + 1 ∧
    getState (extendSnapshot p l) kAnonymousTopicState =
      getState p kAnonymousTopicState ∧
    getState (extendSnapshot p l) i =
      (match (l.filter fun t => t.id = i).getLast? with
       | some w => some w
       | none => getState p i) := by
  exact ⟨rfl, updateValuesGo_fst_anon l p.store kAnonymousTopicState false,
    updateValuesGo_fst l p.store kAnonymousTopicState false i hi⟩

/-- C6 witness: extending version-3 snapshot with a concrete list. -/
theorem snapshot_extend_spec_witness :
    (2 : Int) ≠ kAnonymousTopicState ∧
    ((extendSnapshot ⟨3, fun _ => none⟩ [⟨1, 10⟩, ⟨2, 20⟩]).version = 3 + 1 ∧
     getState (extendSnapshot ⟨3, fun _ => none⟩ [⟨1, 10⟩, ⟨2, 20⟩])
       kAnonymousTopicState =
       getState (⟨3, fun _ => none⟩ : Snapshot) kAnonymousTopicState ∧
     getState (extendSnapshot ⟨3, fun _ => none⟩ [⟨1, 10⟩, ⟨2, 20⟩]) 2 =
      (match (([⟨1, 10⟩, ⟨2, 20⟩] : List TS).filter
          fun t => t.id = 2).getLast? with
       | some w => some w
       | none => getState (⟨3, fun _ => none⟩ : Snapshot) 2)) :=
  ⟨by decide, snapshot_extend_spec ⟨3, fun _ => none⟩ [⟨1, 10⟩, ⟨2, 20⟩] 2
    (by decide)⟩

/-- C7: when the extension's input list contains two consecutive named
entries with the same topic-state id, `UpdateValues` detects the duplicate
and signals it — the consecutive-duplicate branch fires (modelled by the
flag; in the C++ code the branch emits the duplicate diagnostic, the
contract violation for two named topic states with one id in one pass). -/
theorem updateValues_detects_consecutive_duplicate (m : Int → Option TS)
    (l₁ l₂ : List TS) (t₁ t₂ : TS) (h₁ : t₁.id ≠ kAnonymousTopicState)
    (h₂ : t₂.id ≠ kAnonymousTopicState) (he : t₂.id = t₁.id) :
    (updateValues m (l₁ ++ t₁ :: t₂ :: l₂)).2 = true := by
  unfold updateValues
  generalize m = m0
  generalize kAnonymousTopicState = prev
  generalize (false : Bool) = dup
  induction l₁ generalizing m0 prev dup with
  | nil =>
    simp only [List.nil_append, updateValuesGo, if_pos (by simpa using h₁),
      if_pos (by simpa using h₂)]
    rw [show (dup || (t₁.id == prev) || (t₂.id == t₁.id)) = true by
      simp [he]]
    exact updateValuesGo_snd_true l₂ _ _
  | cons t rest ih =>
    by_cases ht : t.id = kAnonymousTopicState <;>
      simp [updateValuesGo, ht, ih]

/-- C7 witness: two adjacent entries with id 5 are detected. -/
theorem updateValues_detects_consecutive_duplicate_witness :
    ((5 : Int) ≠ kAnonymousTopicState ∧ (5 : Int) ≠ kAnonymousTopicState ∧
      (5 : Int) = 5) ∧
    (updateValues (fun _ => none)
      (([] : List TS) ++ (⟨5, 1⟩ : TS) :: (⟨5, 2⟩ : TS) :: [])).2 = true :=
  ⟨⟨by decide, by decide, rfl⟩,
    updateValues_detects_consecutive_duplicate (fun _ => none) [] [] ⟨5, 1⟩
      ⟨5, 2⟩ (by decide) (by decide) rfl⟩

/-- C10: when the input list contains two named entries sharing id `i`
that need not be consecutive, the extension still completes (the version is
bumped as usual) and the map holds the last entry of the list with id `i`:
each later entry silently overwrites the earlier one. -/
theorem snapshot_extend_duplicate_last_wins (p : Snapshot)
    (l₁ l₂ l₃ : List TS) (t₁ t₂ : TS) (i : Int) (_h₁ : t₁.id = i)
    (h₂ : t₂.id = i) (hi : i ≠ kAnonymousTopicState) :
    (extendSnapshot p (l₁ ++ t₁ :: (l₂ ++ t₂ :: l₃))).version =
      p.version + 1 ∧
    ∃ w, ((l₁ ++ t₁ :: (l₂ ++ t₂ :: l₃)).filter
        fun t => t.id = i).getLast? = some w ∧
      getState (extendSnapshot p (l₁ ++ t₁ :: (l₂ ++ t₂ :: l₃))) i =
        some w := by
  refine ⟨rfl, ?_⟩
  have hmem : t₂ ∈ (l₁ ++ t₁ :: (l₂ ++ t₂ :: l₃)).filter
      fun t => t.id = i := by
    rw [List.mem_filter]
    exact ⟨by simp, by simpa using h₂⟩
  have hne : (l₁ ++ t₁ :: (l₂ ++ t₂ :: l₃)).filter
      (fun t => t.id = i) ≠ [] := List.ne_nil_of_mem hmem
  obtain ⟨w, hw⟩ := Option.isSome_iff_exists.mp (List.getLast?_isSome.mpr hne)
  refine ⟨w, hw, ?_⟩
  rw [show getState (extendSnapshot p (l₁ ++ t₁ :: (l₂ ++ t₂ :: l₃))) i =
    (updateValuesGo p.store kAnonymousTopicState false
      (l₁ ++ t₁ :: (l₂ ++ t₂ :: l₃))).1 i from rfl]
  rw [updateValuesGo_fst _ _ _ _ _ hi, hw]

/-- C10 witness: ids 7 .. 7 with an anonymous entry in between. -/
theorem snapshot_extend_duplicate_last_wins_witness :
    ((7 : Int) = 7 ∧ (7 : Int) = 7 ∧ (7 : Int) ≠ kAnonymousTopicState) ∧
    ((extendSnapshot ⟨0, fun _ => none⟩
        (([] : List TS) ++ (⟨7, 1⟩ : TS) :: (([⟨-1, 9⟩] : List TS) ++ (⟨7, 2⟩ : TS) :: []))).version =
      0 + 1 ∧
    ∃ w, ((([] : List TS) ++ (⟨7, 1⟩ : TS) :: (([⟨-1, 9⟩] : List TS) ++ (⟨7, 2⟩ : TS) :: [])).filter
        fun t => t.id = 7).getLast? = some w ∧
      getState (extendSnapshot ⟨0, fun _ => none⟩
        (([] : List TS) ++ (⟨7, 1⟩ : TS) :: (([⟨-1, 9⟩] : List TS) ++ (⟨7, 2⟩ : TS) :: []))) 7 =
        some w) :=
  ⟨⟨rfl, rfl, by decide⟩,
    snapshot_extend_duplicate_last_wins ⟨0, fun _ => none⟩ [] [⟨-1, 9⟩] []
      ⟨7, 1⟩ ⟨7, 2⟩ 7 rfl rfl (by decide)⟩

/-! ## Claim theorems: timeout publisher service -/

/-- C8: one-shot timer cancellation semantics.  With a valid handle (the
`DG_ASSERT` bound): cancelling an empty slot is a no-op; after a cancel the
slot is empty; cancellation is idempotent; `TimeoutExpired` firing after a
cancel pushes no value into the graph; and `HasTimeoutExpired` is true
exactly when the slot is empty. -/
theorem cancel_timeout_spec (s : TimeoutSvc) (h : Nat)
    (hlt : h < s.dispatchers.length) :
    (s.dispatchers.getD h none = none → cancelPublishOnTimeout s h = s) ∧
    (cancelPublishOnTimeout s h).dispatchers.getD h none = none ∧
    cancelPublishOnTimeout (cancelPublishOnTimeout s h) h =
      cancelPublishOnTimeout s h ∧
    timeoutExpired (cancelPublishOnTimeout s h) h =
      (cancelPublishOnTimeout s h, []) ∧
    (hasTimeoutExpired s h = true ↔ s.dispatchers.getD h none = none) := by
  have hslot : ∀ l : List (Option TDispatcher), h < l.length →
      (l.set h none).getD h none = none := by
    intro l hl
    simp [List.getD, List.getElem?_set_self, hl]
  have hempty : (cancelPublishOnTimeout s h).dispatchers.getD h none =
      none := by
    unfold cancelPublishOnTimeout
    cases hd : s.dispatchers.getD h none with
    | none => exact hd
    | some d => exact hslot s.dispatchers hlt
  have hnoop : ∀ s2 : TimeoutSvc, s2.dispatchers.getD h none = none →
      cancelPublishOnTimeout s2 h = s2 := by
    intro s2 h2
    unfold cancelPublishOnTimeout
    rw [h2]
  have hskip : ∀ s2 : TimeoutSvc, s2.dispatchers.getD h none = none →
      timeoutExpired s2 h = (s2, []) := by
    intro s2 h2
    unfold timeoutExpired
    rw [h2]
  refine ⟨hnoop s, hempty, hnoop _ hempty, hskip _ hempty, ?_⟩
  simp [hasTimeoutExpired]

/-- C8 witness: a service with one armed slot. -/
theorem cancel_timeout_spec_witness :
    0 < (TimeoutSvc.mk [some ⟨3, 7⟩]).dispatchers.length ∧
    (((TimeoutSvc.mk [some ⟨3, 7⟩]).dispatchers.getD 0 none = none →
        cancelPublishOnTimeout ⟨[some ⟨3, 7⟩]⟩ 0 = ⟨[some ⟨3, 7⟩]⟩) ∧
     (cancelPublishOnTimeout ⟨[some ⟨3, 7⟩]⟩ 0).dispatchers.getD 0 none =
        none ∧
     cancelPublishOnTimeout (cancelPublishOnTimeout ⟨[some ⟨3, 7⟩]⟩ 0) 0 =
        cancelPublishOnTimeout ⟨[some ⟨3, 7⟩]⟩ 0 ∧
     timeoutExpired (cancelPublishOnTimeout ⟨[some ⟨3, 7⟩]⟩ 0) 0 =
        (cancelPublishOnTimeout ⟨[some ⟨3, 7⟩]⟩ 0, []) ∧
     (hasTimeoutExpired ⟨[some ⟨3, 7⟩]⟩ 0 = true ↔
        (TimeoutSvc.mk [some ⟨3, 7⟩]).dispatchers.getD 0 none = none)) :=
  ⟨by decide, cancel_timeout_spec ⟨[some ⟨3, 7⟩]⟩ 0 (by decide)⟩

/-- C9 counterexample: the first handle returned by a freshly constructed
service (empty `mTimeoutDispatchers`) is `0`, which is not a positive
integer, refuting "every handle returned by `GetUniqueTimerHandle` is a
positive integer". -/
theorem first_timer_handle_is_zero :
    (getUniqueTimerHandle ⟨[]⟩).1 = 0 ∧
    ¬ (0 : Int) < (getUniqueTimerHandle ⟨[]⟩).1 := by
  exact ⟨rfl, by decide⟩

/-- C9 (amended): every handle returned by `GetUniqueTimerHandle` is a
non-negative integer, distinct from (indeed strictly greater than) every
previously returned handle no matter which schedule/cancel/expire
operations ran in between, and is never the reserved invalid-handle
sentinel `-1`. -/
theorem timer_handle_nonneg_and_distinct (s : TimeoutSvc)
    (ops : List SvcOp) :
    0 ≤ (getUniqueTimerHandle s).1 ∧
    (getUniqueTimerHandle s).1 ≠ kInvalidTimeoutPublisherHandle ∧
    (getUniqueTimerHandle s).1 <
      (getUniqueTimerHandle
        (runSvcOps (getUniqueTimerHandle s).2 ops)).1 := by
  refine ⟨Int.ofNat_nonneg _, ?_, ?_⟩
  · intro hcontra
    have h0 : (0 : Int) ≤ (getUniqueTimerHandle s).1 := Int.ofNat_nonneg _
    rw [hcontra] at h0
    exact absurd h0 (by decide)
  · show (s.dispatchers.length : Int) <
      ((runSvcOps (getUniqueTimerHandle s).2 ops).dispatchers.length : Int)
    rw [runSvcOps_length]
    show (s.dispatchers.length : Int) <
      ((s.dispatchers ++ [none]).length : Int)
    simp

/-! ## Mark-order and clear-count lemmas for the sort proof -/

theorem monoMarks_refl (σ : Nat → VState) : MonoMarks σ σ :=
  fun _ => Nat.le_refl _

theorem monoMarks_trans (σ₁ σ₂ σ₃ : Nat → VState) (h1 : MonoMarks σ₁ σ₂)
    (h2 : MonoMarks σ₂ σ₃) : MonoMarks σ₁ σ₃ :=
  fun w => Nat.le_trans (h1 w) (h2 w)

theorem procAgree_refl (σ : Nat → VState) : ProcAgree σ σ :=
  fun _ => Iff.rfl

theorem procAgree_trans (σ₁ σ₂ σ₃ : Nat → VState) (h1 : ProcAgree σ₁ σ₂)
    (h2 : ProcAgree σ₂ σ₃) : ProcAgree σ₁ σ₃ :=
  fun w => (h2 w).trans (h1 w)

theorem monoMarks_done (σ₁ σ₂ : Nat → VState) (h : MonoMarks σ₁ σ₂)
    (w : Nat) (hd : σ₁ w = .done) : σ₂ w = .done := by
  have hw := h w
  rw [hd] at hw
  cases hc : σ₂ w <;> rw [hc] at hw <;> simp [vrank] at hw ⊢

theorem monoMarks_clear_down (σ₁ σ₂ : Nat → VState) (h : MonoMarks σ₁ σ₂)
    (w : Nat) (hc2 : σ₂ w = .clear) : σ₁ w = .clear := by
  have hw := h w
  rw [hc2] at hw
  cases hc : σ₁ w <;> rw [hc] at hw <;> simp [vrank] at hw ⊢

theorem countP_congr_mem (l : List Nat) (p q : Nat → Bool)
    (h : ∀ a ∈ l, p a = q a) : l.countP p = l.countP q := by
  induction l with
  | nil => rfl
  | cons a rest ih =>
    rw [List.countP_cons, List.countP_cons,
      ih (fun b hb => h b (List.mem_cons_of_mem a hb)),
      h a (List.mem_cons_self a rest)]

theorem clearCount_le_length (ord : List Nat) (σ : Nat → VState) :
    clearCount ord σ ≤ ord.length :=
  List.countP_le_length _

theorem clearCount_mono_le (ord : List Nat) (σ₁ σ₂ : Nat → VState)
    (h : MonoMarks σ₁ σ₂) :
    clearCount ord σ₂ ≤ clearCount ord σ₁ := by
  refine List.countP_mono_left ?_
  intro a _ ha
  have hclear : σ₂ a = .clear := by simpa using ha
  simpa using monoMarks_clear_down σ₁ σ₂ h a hclear

theorem clearCount_update (ord : List Nat) (hnd : ord.Nodup)
    (σ : Nat → VState) (v : Nat) (hv : v ∈ ord) (hσ : σ v = .clear)
    (c : VState) (hc : c ≠ .clear) :
    clearCount ord (Function.update σ v c) + 1 = clearCount ord σ := by
  induction ord with
  | nil => exact absurd hv (List.not_mem_nil v)
  | cons a rest ih =>
    have hanr : a ∉ rest := (List.nodup_cons.mp hnd).1
    have hndr : rest.Nodup := (List.nodup_cons.mp hnd).2
    unfold clearCount
    rw [List.countP_cons, List.countP_cons]
    rcases List.mem_cons.mp hv with hva | hvr
    · subst hva
      have hrest : rest.countP (fun w => Function.update σ v c w == .clear) =
          rest.countP (fun w => σ w == .clear) := by
        refine countP_congr_mem rest _ _ ?_
        intro b hb
        rw [Function.update_noteq (fun hbv => hanr (by
          rw [← hbv]; exact hb))]
      rw [hrest, Function.update_same]
      have h1 : (c == VState.clear) = false := by
        simpa using hc
      have h2 : (σ v == VState.clear) = true := by
        simpa using hσ
      rw [h1, h2]
      simp [Nat.add_assoc]
    · have hav : a ≠ v := fun hav => hanr (by rw [hav]; exact hvr)
      rw [Function.update_noteq hav]
      have := ih hndr hvr
      unfold clearCount at this
      omega

theorem done_reach (g : EGraph) (σ : Nat → VState)
    (hclosed : ∀ u, σ u = .done → ∀ w ∈ g.adj u, σ w = .done)
    (a b : Nat) (hab : Relation.ReflTransGen (Edge g) a b)
    (ha : σ a = .done) : σ b = .done := by
  induction hab with
  | refl => exact ha
  | tail _ h2 ih => exact hclosed _ ih _ h2

/-! ## The out-edge loop of `DFS_visit` -/

theorem dfsLoop_spec (g : EGraph) (ord : List Nat)
    (hc : Closed g ord) (F : Nat) (visit : Nat → DfsSt → DfsRes)
    (hvs : VisitSpec g ord F visit) (p : Nat) (hp : p ∈ ord) :
    ∀ (cs : List Nat) (st : DfsSt), (∀ c ∈ cs, c ∈ g.adj p) →
    DfsInv g ord st →
    (∀ w, st.σ w = .processing → Relation.ReflTransGen (Edge g) w p) →
    clearCount ord st.σ < F →
    match dfsLoop visit cs st with
    | .ok st2 => DfsInv g ord st2 ∧ MonoMarks st.σ st2.σ ∧
        ProcAgree st.σ st2.σ ∧ ∀ c ∈ cs, st2.σ c = .done
    | .cycle => ∃ z ∈ ord, Relation.TransGen (Edge g) z z
    | .noFuel => False := by
  intro cs
  induction cs with
  | nil =>
    intro st _ hinv _ _
    exact ⟨hinv, monoMarks_refl st.σ, procAgree_refl st.σ,
      fun c hcmem => absurd hcmem (List.not_mem_nil c)⟩
  | cons c cs2 ih =>
    intro st hcs hinv hanc hcc
    have hcadj : c ∈ g.adj p := hcs c (List.mem_cons_self c cs2)
    have hcord : c ∈ ord := hc p hp c hcadj
    have hcs2 : ∀ b ∈ cs2, b ∈ g.adj p :=
      fun b hb => hcs b (List.mem_cons_of_mem c hb)
    cases hσc : st.σ c with
    | clear =>
      have hancc : ∀ w, st.σ w = .processing →
          Relation.ReflTransGen (Edge g) w c :=
        fun w hw => Relation.ReflTransGen.tail (hanc w hw) hcadj
      have hv := hvs c st hcord hσc hinv hancc hcc
      cases hvc : visit c st with
      | ok st1 =>
        rw [hvc] at hv
        obtain ⟨hinv1, hmono1, hpe1, hdone1⟩ := hv
        have hanc1 : ∀ w, st1.σ w = .processing →
            Relation.ReflTransGen (Edge g) w p :=
          fun w hw => hanc w ((hpe1 w).mp hw)
        have hcc1 : clearCount ord st1.σ < F :=
          Nat.lt_of_le_of_lt (clearCount_mono_le ord st.σ st1.σ hmono1) hcc
        have hrec := ih st1 hcs2 hinv1 hanc1 hcc1
        have hstep : dfsLoop visit (c :: cs2) st = dfsLoop visit cs2 st1 := by
          simp only [dfsLoop, hσc, hvc]
        rw [hstep]
        cases hrun : dfsLoop visit cs2 st1 with
        | ok st2 =>
          rw [hrun] at hrec
          obtain ⟨hinv2, hmono2, hpe2, hdone2⟩ := hrec
          refine ⟨hinv2, monoMarks_trans _ _ _ hmono1 hmono2,
            procAgree_trans _ _ _ hpe1 hpe2, ?_⟩
          intro b hb
          rcases List.mem_cons.mp hb with hbc | hbcs
          · subst hbc
            exact monoMarks_done st1.σ st2.σ hmono2 b hdone1
          · exact hdone2 b hbcs
        | cycle =>
          rw [hrun] at hrec
          exact hrec
        | noFuel =>
          rw [hrun] at hrec
          exact hrec
      | cycle =>
        rw [hvc] at hv
        have hstep : dfsLoop visit (c :: cs2) st = .cycle := by
          simp only [dfsLoop, hσc, hvc]
        rw [hstep]
        exact hv
      | noFuel =>
        rw [hvc] at hv
        exact hv.elim
    | processing =>
      have hstep : dfsLoop visit (c :: cs2) st = .cycle := by
        simp only [dfsLoop, hσc]
      rw [hstep]
      exact ⟨c, hcord, Relation.TransGen.tail' (hanc c hσc) hcadj⟩
    | done =>
      have hstep : dfsLoop visit (c :: cs2) st = dfsLoop visit cs2 st := by
        simp only [dfsLoop, hσc]
      rw [hstep]
      have hrec := ih st hcs2 hinv hanc hcc
      cases hrun : dfsLoop visit cs2 st with
      | ok st2 =>
        rw [hrun] at hrec
        obtain ⟨hinv2, hmono2, hpe2, hdone2⟩ := hrec
        refine ⟨hinv2, hmono2, hpe2, ?_⟩
        intro b hb
        rcases List.mem_cons.mp hb with hbc | hbcs
        · subst hbc
          exact monoMarks_done st.σ st2.σ hmono2 b hσc
        · exact hdone2 b hbcs
      | cycle =>
        rw [hrun] at hrec
        exact hrec
      | noFuel =>
        rw [hrun] at hrec
        exact hrec

/-! ## `DFS_visit` satisfies the visit specification -/

theorem dfsVisit_spec (g : EGraph) (ord : List Nat)
    (hc : Closed g ord) (hnd : ord.Nodup) :
    ∀ fuel, VisitSpec g ord fuel (dfsVisit g fuel) := by
  intro fuel
  induction fuel with
  | zero =>
    intro v st hv hσv hinv hanc hcc
    exact absurd hcc (Nat.not_lt_zero _)
  | succ fuel ih =>
    intro v st hv hσv hinv hanc hcc
    have hinv1 : DfsInv g ord
        ⟨Function.update st.σ v .processing, st.sorted⟩ := by
      refine ⟨?_, hinv.sortedNodup, ?_, ?_, ?_⟩
      all_goals dsimp only
      · intro w
        by_cases hwv : w = v
        · subst hwv
          constructor
          · intro hmem
            exact absurd ((hinv.sortedDone w).mp hmem) (by simp [hσv])
          · intro hd
            rw [Function.update_same] at hd
            exact absurd hd (by decide)
        · show w ∈ st.sorted ↔ Function.update st.σ v .processing w = _
          rw [Function.update_noteq hwv]
          exact hinv.sortedDone w
      · intro w hw
        by_cases hwv : w = v
        · subst hwv
          rw [Function.update_same] at hw
          exact absurd hw (by decide)
        · rw [Function.update_noteq hwv] at hw
          exact hinv.doneMem w hw
      · intro u hu w hwadj
        by_cases huv : u = v
        · subst huv
          rw [Function.update_same] at hu
          exact absurd hu (by decide)
        · rw [Function.update_noteq huv] at hu
          have hwdone := hinv.doneClosed u hu w hwadj
          by_cases hwv : w = v
          · subst hwv
            rw [hσv] at hwdone
            exact absurd hwdone (by decide)
          · show Function.update st.σ v .processing w = _
            rw [Function.update_noteq hwv]
            exact hwdone
      · intro u hu
        by_cases huv : u = v
        · subst huv
          rw [Function.update_same] at hu
          exact absurd hu (by decide)
        · rw [Function.update_noteq huv] at hu
          exact hinv.doneAcyclic u hu
    have hanc1 : ∀ w, Function.update st.σ v .processing w = .processing →
        Relation.ReflTransGen (Edge g) w v := by
      intro w hw
      by_cases hwv : w = v
      · subst hwv
        exact Relation.ReflTransGen.refl
      · rw [Function.update_noteq hwv] at hw
        exact hanc w hw
    have hccup : clearCount ord (Function.update st.σ v .processing) + 1 =
        clearCount ord st.σ :=
      clearCount_update ord hnd st.σ v hv hσv .processing (by decide)
    have hcc1 : clearCount ord (Function.update st.σ v .processing) <
        fuel := by omega
    have hloopspec := dfsLoop_spec g ord hc fuel (dfsVisit g fuel) ih v hv
      (g.adj v) ⟨Function.update st.σ v .processing, st.sorted⟩
      (fun c hc2 => hc2) hinv1 hanc1 hcc1
    have hunfold : dfsVisit g (fuel + 1) v st =
        match dfsLoop (dfsVisit g fuel) (g.adj v)
          ⟨Function.update st.σ v .processing, st.sorted⟩ with
        | .ok st2 => .ok ⟨Function.update st2.σ v .done, v :: st2.sorted⟩
        | r => r := rfl
    rw [hunfold]
    cases hloop : dfsLoop (dfsVisit g fuel) (g.adj v)
        ⟨Function.update st.σ v .processing, st.sorted⟩ with
    | ok st2 =>
      rw [hloop] at hloopspec
      obtain ⟨hinv2, hmono2, hpe2, hchild⟩ := hloopspec
      dsimp only
      have hσ2v : st2.σ v = .processing :=
        (hpe2 v).mpr (Function.update_same v .processing st.σ)
      refine ⟨⟨?_, ?_, ?_, ?_, ?_⟩, ?_, ?_, ?_⟩
      all_goals dsimp only
      · intro w
        by_cases hwv : w = v
        · subst hwv
          exact iff_of_true (List.mem_cons_self w st2.sorted)
            (Function.update_same _ _ _)
        · show w ∈ _ :: _ ↔ Function.update st2.σ v .done w = _
          rw [Function.update_noteq hwv]
          constructor
          · intro hmem
            rcases List.mem_cons.mp hmem with h | h
            · exact absurd h hwv
            · exact (hinv2.sortedDone w).mp h
          · intro hd
            exact List.mem_cons_of_mem _ ((hinv2.sortedDone w).mpr hd)
      · refine List.nodup_cons.mpr ⟨?_, hinv2.sortedNodup⟩
        intro hmem
        have := (hinv2.sortedDone v).mp hmem
        rw [hσ2v] at this
        exact absurd this (by decide)
      · intro w hw
        by_cases hwv : w = v
        · rw [hwv]
          exact hv
        · rw [Function.update_noteq hwv] at hw
          exact hinv2.doneMem w hw
      · intro u hu w hwadj
        by_cases hwv : w = v
        · rw [hwv]
          exact Function.update_same _ _ _
        · rw [Function.update_noteq hwv]
          by_cases huv : u = v
          · rw [huv] at hwadj
            exact hchild w hwadj
          · rw [Function.update_noteq huv] at hu
            exact hinv2.doneClosed u hu w hwadj
      · intro u hu
        by_cases huv : u = v
        · rw [huv]
          intro hcyc
          obtain ⟨w, hvw, hwv2⟩ := Relation.TransGen.head'_iff.mp hcyc
          have hwdone : st2.σ w = .done := hchild w hvw
          have hvdone : st2.σ v = .done :=
            done_reach g st2.σ hinv2.doneClosed w v hwv2 hwdone
          rw [hσ2v] at hvdone
          exact absurd hvdone (by decide)
        · rw [Function.update_noteq huv] at hu
          exact hinv2.doneAcyclic u hu
      · intro w
        by_cases hwv : w = v
        · subst hwv
          rw [hσv, Function.update_same]
          decide
        · rw [Function.update_noteq hwv]
          have hm := hmono2 w
          dsimp only at hm
          rw [Function.update_noteq hwv] at hm
          exact hm
      · intro w
        by_cases hwv : w = v
        · subst hwv
          rw [Function.update_same, hσv]
          decide
        · rw [Function.update_noteq hwv]
          have hp2 := hpe2 w
          dsimp only at hp2
          rw [Function.update_noteq hwv] at hp2
          exact hp2
      · exact Function.update_same _ _ _
    | cycle =>
      rw [hloop] at hloopspec
      exact hloopspec
    | noFuel =>
      rw [hloop] at hloopspec
      exact hloopspec

/-! ## The top-level sort loop -/

theorem topoLoop_spec (g : EGraph) (ord : List Nat)
    (hc : Closed g ord) (hnd : ord.Nodup) :
    ∀ (vs : List Nat) (st : DfsSt), (∀ v ∈ vs, v ∈ ord) →
    DfsInv g ord st → (∀ w, st.σ w ≠ .processing) →
    match topoLoop g (ord.length + 1) vs st with
    | .ok st2 => DfsInv g ord st2 ∧ (∀ w, st2.σ w ≠ .processing) ∧
        MonoMarks st.σ st2.σ ∧ ∀ v ∈ vs, st2.σ v = .done
    | .cycle => ∃ z ∈ ord, Relation.TransGen (Edge g) z z
    | .noFuel => False := by
  intro vs
  induction vs with
  | nil =>
    intro st _ hinv hnp
    exact ⟨hinv, hnp, monoMarks_refl st.σ,
      fun v hv => absurd hv (List.not_mem_nil v)⟩
  | cons v vs2 ih =>
    intro st hvs hinv hnp
    have hvord : v ∈ ord := hvs v (List.mem_cons_self v vs2)
    have hvs2 : ∀ b ∈ vs2, b ∈ ord :=
      fun b hb => hvs b (List.mem_cons_of_mem v hb)
    by_cases hσv : st.σ v = .clear
    · have hvspec := dfsVisit_spec g ord hc hnd (ord.length + 1) v st hvord
        hσv hinv (fun w hw => absurd hw (hnp w))
        (Nat.lt_succ_of_le (clearCount_le_length ord st.σ))
      have hstep : topoLoop g (ord.length + 1) (v :: vs2) st =
          match dfsVisit g (ord.length + 1) v st with
          | .ok st1 => topoLoop g (ord.length + 1) vs2 st1
          | r => r := by
        simp only [topoLoop, if_pos hσv]
      rw [hstep]
      cases hvisit : dfsVisit g (ord.length + 1) v st with
      | ok st1 =>
        dsimp only
        rw [hvisit] at hvspec
        obtain ⟨hinv1, hmono1, hpe1, hdone1⟩ := hvspec
        have hnp1 : ∀ w, st1.σ w ≠ .processing :=
          fun w hw => hnp w ((hpe1 w).mp hw)
        have hrec := ih st1 hvs2 hinv1 hnp1
        cases hrun : topoLoop g (ord.length + 1) vs2 st1 with
        | ok st2 =>
          rw [hrun] at hrec
          obtain ⟨hinv2, hnp2, hmono2, hdone2⟩ := hrec
          refine ⟨hinv2, hnp2, monoMarks_trans _ _ _ hmono1 hmono2, ?_⟩
          intro b hb
          rcases List.mem_cons.mp hb with hbv | hbvs
          · rw [hbv]
            exact monoMarks_done st1.σ st2.σ hmono2 v hdone1
          · exact hdone2 b hbvs
        | cycle =>
          rw [hrun] at hrec
          exact hrec
        | noFuel =>
          rw [hrun] at hrec
          exact hrec
      | cycle =>
        dsimp only
        rw [hvisit] at hvspec
        exact hvspec
      | noFuel =>
        rw [hvisit] at hvspec
        exact hvspec.elim
    · have hstep : topoLoop g (ord.length + 1) (v :: vs2) st =
          topoLoop g (ord.length + 1) vs2 st := by
        simp only [topoLoop, if_neg hσv]
      rw [hstep]
      have hrec := ih st hvs2 hinv hnp
      cases hrun : topoLoop g (ord.length + 1) vs2 st with
      | ok st2 =>
        rw [hrun] at hrec
        obtain ⟨hinv2, hnp2, hmono2, hdone2⟩ := hrec
        refine ⟨hinv2, hnp2, hmono2, ?_⟩
        intro b hb
        rcases List.mem_cons.mp hb with hbv | hbvs
        · have hvdone : st.σ v = .done := by
            cases hsv : st.σ v with
            | clear => exact absurd hsv hσv
            | processing => exact absurd hsv (hnp v)
            | done => rfl
          rw [hbv]
          exact monoMarks_done st.σ st2.σ hmono2 v hvdone
        · exact hdone2 b hbvs
      | cycle =>
        rw [hrun] at hrec
        exact hrec
      | noFuel =>
        rw [hrun] at hrec
        exact hrec

/-! ## `TopoSortGraph` is a cycle detector -/

theorem topoSortOrder_badConfiguration_iff (g : EGraph) (ord : List Nat)
    (hc : Closed g ord) (hnd : ord.Nodup) :
    (topoSortOrder g ord).1 = .BadConfiguration ↔ HasCycle g ord := by
  have hinv0 : DfsInv g ord ⟨fun _ => .clear, []⟩ := by
    refine ⟨?_, List.nodup_nil, ?_, ?_, ?_⟩
    all_goals dsimp only
    · intro w
      exact iff_of_false (List.not_mem_nil w) (by decide)
    · intro w hw
      exact absurd hw (by decide)
    · intro u hu
      exact absurd hu (by decide)
    · intro u hu
      exact absurd hu (by decide)
  have hrun := topoLoop_spec g ord hc hnd ord ⟨fun _ => .clear, []⟩
    (fun v hv => hv) hinv0 (fun w h => VState.noConfusion h)
  unfold topoSortOrder
  cases hloop : topoLoop g (ord.length + 1) ord ⟨fun _ => .clear, []⟩ with
  | ok st2 =>
    rw [hloop] at hrun
    obtain ⟨hinv2, _, _, hdoneAll⟩ := hrun
    have hmemiff : ∀ a, a ∈ st2.sorted ↔ a ∈ ord := by
      intro a
      constructor
      · intro ha
        exact hinv2.doneMem a ((hinv2.sortedDone a).mp ha)
      · intro ha
        exact (hinv2.sortedDone a).mpr (hdoneAll a ha)
    have hlen : st2.sorted.length = ord.length :=
      ((List.perm_ext_iff_of_nodup hinv2.sortedNodup hnd).mpr
        hmemiff).length_eq
    dsimp only
    rw [if_pos hlen]
    refine iff_of_false (fun h => ErrorType.noConfusion h) ?_
    intro hcy
    obtain ⟨z, hz, hcyc⟩ := hcy
    exact absurd hcyc (hinv2.doneAcyclic z (hdoneAll z hz))
  | cycle =>
    rw [hloop] at hrun
    exact iff_of_true rfl hrun
  | noFuel =>
    rw [hloop] at hrun
    exact hrun.elim

/-! ## The sort reads only immediate out-edges -/

theorem dfsVisit_adj_congr (g₁ g₂ : EGraph) (hadj : g₁.adj = g₂.adj) :
    ∀ fuel v st, dfsVisit g₁ fuel v st = dfsVisit g₂ fuel v st := by
  intro fuel
  induction fuel with
  | zero => intro v st; rfl
  | succ fuel ih =>
    intro v st
    have hfun : dfsVisit g₁ fuel = dfsVisit g₂ fuel :=
      funext fun a => funext fun b => ih a b
    simp only [dfsVisit]
    rw [hadj, hfun]

theorem topoLoop_adj_congr (g₁ g₂ : EGraph) (hadj : g₁.adj = g₂.adj)
    (fuel : Nat) :
    ∀ vs st, topoLoop g₁ fuel vs st = topoLoop g₂ fuel vs st := by
  intro vs
  induction vs with
  | nil => intro st; rfl
  | cons v vs2 ih =>
    intro st
    have hfun : topoLoop g₁ fuel vs2 = topoLoop g₂ fuel vs2 := funext ih
    simp only [topoLoop]
    rw [dfsVisit_adj_congr g₁ g₂ hadj fuel v st, hfun]

theorem topoSortOrder_adj_congr (g₁ g₂ : EGraph) (hadj : g₁.adj = g₂.adj)
    (ord : List Nat) : topoSortOrder g₁ ord = topoSortOrder g₂ ord := by
  unfold topoSortOrder
  rw [topoLoop_adj_congr g₁ g₂ hadj (ord.length + 1) ord]

theorem evaluate_dirty_fst (g : EGraph) (st : GraphSt)
    (hdirty : st.dirty = true) :
    (EvaluateGraph g st).1 = (topoSortOrder g st.order).1 := by
  simp only [EvaluateGraph, hdirty, if_true]
  cases hts : topoSortOrder g st.order with
  | mk e o =>
    cases e with
    | Success => rfl
    | BadConfiguration => rfl

/-! ## Claim theorem: the topological sort detects exactly the cycles -/

/-- C1: on a dirty graph whose vertex list holds each vertex once and whose
immediate out-edges stay inside the graph, `EvaluateGraph` returns
`ErrorType_BadConfiguration` iff the immediate-out-edge subgraph contains a
directed cycle; the failure is reported by the depth-first sort
(`TopoSortGraph`/`DFS_visit`), and the sort's result is unchanged by the
future-edge sets (`mFutureOutEdges`), which the sort never reads. -/
theorem evaluate_badConfiguration_iff_cycle (g : EGraph) (st : GraphSt)
    (hdirty : st.dirty = true) (hnd : st.order.Nodup)
    (hc : Closed g st.order) :
    ((EvaluateGraph g st).1 = .BadConfiguration ↔ HasCycle g st.order) ∧
    ∀ F, topoSortOrder { g with fadj := F } st.order =
      topoSortOrder g st.order := by
  refine ⟨?_, fun F => topoSortOrder_adj_congr { g with fadj := F } g rfl st.order⟩
  rw [evaluate_dirty_fst g st hdirty]
  exact topoSortOrder_badConfiguration_iff g st.order hc hnd

/-- C1 witness: the pass-through graph with an unsorted dirty vertex
list. -/
theorem evaluate_badConfiguration_iff_cycle_witness :
    (wStDirty.dirty = true ∧ wStDirty.order.Nodup ∧
      Closed wG wStDirty.order) ∧
    (((EvaluateGraph wG wStDirty).1 = .BadConfiguration ↔
        HasCycle wG wStDirty.order) ∧
     ∀ F, topoSortOrder { wG with fadj := F } wStDirty.order =
       topoSortOrder wG wStDirty.order) :=
  ⟨⟨rfl, by decide, by decide⟩,
    evaluate_badConfiguration_iff_cycle wG wStDirty rfl (by decide)
      (by decide)⟩

end DetectorGraph
